import Mathlib

/-!
Verification of the `gokpm/go-types` library (file `types.go`).

The library is a set of JSON-string wrapper types: `StringDuration`,
`StringInt`, `StringFloat64`, `StringBinaryByteSize`, `StringDecimalSize`,
`StringBool`, `StringArray`.  Each wrapper implements `UnmarshalJSON`
(extract a string token from the JSON value, parse it with a Go standard
library primitive, store the parsed value) and a read-only accessor
`Value`.

Shallow embedding conventions:
- Go strings are Lean `String` / `List Char`.
- `float64` values are modelled as exact rationals (`ℚ`), with no IEEE-754
  rounding and no range error.  Every numeric value appearing in the
  concrete claims (`1.5`, `2^30`, `10^9`, `1024`, `100`, …) is exactly
  representable in binary64 and the products involved are exact, so the
  rational model agrees with the Go `float64` computation there; every
  universally quantified theorem is either conditioned on the float
  primitive's own verdict (so it holds for the same control-flow reason
  whatever the primitive's numeric behaviour) or is a pure syntax fact of
  the grammar that is independent of rounding and range.
- `time.Duration` values are modelled as rational nanosecond counts.
- Fallible Go calls `(T, error)` are modelled as `Except GoError T`; a
  wrapper's `UnmarshalJSON`, which mutates the receiver on success and
  returns early on error, is modelled by explicit state passing
  `wrapper → Json → wrapper × Option GoError` (the returned wrapper is the
  receiver's new state, `none` means a nil error).
- Go `map` literals are modelled as association lists in source order;
  `range` iteration is iteration over the list (order-independence of
  `parseSize` is proved below, claim C10).
-/

deriving instance DecidableEq for Except

namespace GoTypes

/-- Error values produced by the Go standard-library primitives used by
`types.go`.  Each constructor records which primitive failed and on what
input, so "the wrapper returns the primitive's error unchanged" is
expressible as equality of error values. -/
inductive GoError where
  | jsonType : GoError
  | durationErr : String → GoError
  | atoiErr : String → GoError
  | floatErr : String → GoError
  | boolErr : String → GoError
deriving DecidableEq

/-- A JSON value as seen by `json.Unmarshal(b, &v)` with `v` a `string`:
either a JSON string (already unescaped to its Go string contents) or any
non-string JSON value, which makes the extraction fail. -/
inductive Json where
  | str : String → Json
  | notStr : Json
deriving DecidableEq

/-- Models `json.Unmarshal(b, &v)` for a `string` target `v`: succeeds
exactly on JSON strings. -/
def jsonUnmarshalString : Json → Except GoError String
  | .str s => .ok s
  | .notStr => .error .jsonType

/-- ASCII decimal digit test, as used by Go's number scanners. -/
def isDigit (c : Char) : Bool := decide ('0' ≤ c) && decide (c ≤ '9')

/-- Value of a string of decimal digits (most significant first). -/
def digitsToNat (l : List Char) : Nat :=
  l.foldl (fun n c => 10 * n + (c.toNat - '0'.toNat)) 0

/-- Applies a sign flag to a natural number. -/
def signedInt (neg : Bool) (n : Nat) : Int :=
  if neg then -(n : Int) else (n : Int)

/-- Exact rational value of the signed decimal literal
`±⟨ip⟩.⟨fp⟩ × 10^(±e)` (integer digits `ip`, fraction digits `fp`,
exponent digits valued `e`).  Built with `mkRat` so that it evaluates by
kernel reduction; `decValQ_eq` below relates it to ordinary field
arithmetic. -/
def decValQ (neg : Bool) (ip fp : List Char) (eneg : Bool) (e : Nat) : ℚ :=
  let n := digitsToNat ip * 10 ^ fp.length + digitsToNat fp
  if eneg then mkRat (signedInt neg n) (10 ^ (fp.length + e))
  else mkRat (signedInt neg (n * 10 ^ e)) (10 ^ fp.length)

/-- Exact rational product, via `mkRat`; equal to `a * b`
(`ratMul_eq`). -/
def ratMul (a b : ℚ) : ℚ := mkRat (a.num * b.num) (a.den * b.den)

/-- Exact rational sum, via `mkRat`; equal to `a + b` (`ratAdd_eq`). -/
def ratAdd (a b : ℚ) : ℚ :=
  mkRat (a.num * b.den + b.num * a.den) (a.den * b.den)

/-- Strips a single leading sign character, returning (negative?, rest);
mirrors the sign handling at the start of `strconv.ParseFloat`,
`strconv.Atoi` and `time.ParseDuration`. -/
def stripSign : List Char → Bool × List Char
  | [] => (false, [])
  | c :: r =>
    if c = '-' then (true, r)
    else if c = '+' then (false, r)
    else (false, c :: r)

/-- Splits an optional fraction part: on a leading `'.'` (Go tests the
byte explicitly), the following digit run is the fraction; otherwise
there is no fraction and the input is left in place. -/
def splitFrac : List Char → List Char × List Char
  | [] => ([], [])
  | c :: rest =>
    if c = '.' then (rest.takeWhile isDigit, rest.dropWhile isDigit)
    else ([], c :: rest)

/-- Parses the exponent part `[+|-]digits` that follows an `e`/`E` and
applies it to the mantissa; fails if the exponent has no digits or is
followed by anything. -/
def parseExpTail (neg : Bool) (ip fp : List Char) (rest : List Char) : Option ℚ :=
  let (eneg, d) := stripSign rest
  let ed := d.takeWhile isDigit
  let r := d.dropWhile isDigit
  if ed.isEmpty || !r.isEmpty then none
  else some (decValQ neg ip fp eneg (digitsToNat ed))

/-- Decimal / scientific-notation grammar of `strconv.ParseFloat`:
`[+|-] digits [. digits] [e|E [+|-] digits]`, with at least one mantissa
digit required, evaluated exactly over ℚ.  Deliberate deviations from Go,
none of which a theorem below depends on: the value is exact (Go rounds
to the nearest binary64 and returns `ErrRange` out of range — theorems
quantifying over tokens are therefore conditioned on this primitive's own
success verdict, or state grammar-level facts such as rejection of tokens
ending in `'B'`, which hold under any numeric behaviour); the special
forms `Inf`/`NaN`, hexadecimal floats and digit-separating underscores
are omitted (they only enlarge the success set on tokens no claim
touches, and none of them can end in `'B'` either). -/
def parseFloatQ (l : List Char) : Option ℚ :=
  let (neg, l1) := stripSign l
  let ip := l1.takeWhile isDigit
  let r1 := l1.dropWhile isDigit
  let (fp, r2) := splitFrac r1
  if ip.isEmpty && fp.isEmpty then none
  else
    match r2 with
    | [] => some (decValQ neg ip fp false 0)
    | c :: rest =>
      if c = 'e' ∨ c = 'E' then parseExpTail neg ip fp rest else none

/-- Models `strconv.ParseFloat(s, 64)`; see `parseFloatQ` for the model's
scope (exact values, no range error) and how theorems avoid depending on
it. -/
def strconvParseFloat (s : String) : Except GoError ℚ :=
  match parseFloatQ s.data with
  | some q => .ok q
  | none => .error (.floatErr s)

/-- Models `strconv.ParseBool`: the exact twelve-token switch from the Go
source. -/
def strconvParseBool (s : String) : Except GoError Bool :=
  if s = "1" ∨ s = "t" ∨ s = "T" ∨ s = "true" ∨ s = "TRUE" ∨ s = "True" then
    .ok true
  else if s = "0" ∨ s = "f" ∨ s = "F" ∨ s = "false" ∨ s = "FALSE" ∨ s = "False" then
    .ok false
  else .error (.boolErr s)

/-- Models `strconv.Atoi`: optional sign, nonempty digit string, result
within the 64-bit `int` range. -/
def strconvAtoi (s : String) : Except GoError Int :=
  let (neg, l) := stripSign s.data
  if l.isEmpty || l.any (fun c => !isDigit c) then .error (.atoiErr s)
  else
    let v : Int := if neg then -(digitsToNat l : Int) else (digitsToNat l : Int)
    if v < -(2 ^ 63) ∨ 2 ^ 63 - 1 < v then .error (.atoiErr s)
    else .ok v

/-- Unit table of `time.ParseDuration` (nanosecond multipliers). -/
def durationUnitMap : List (String × ℚ) :=
  [("ns", 1), ("us", 1000), ("µs", 1000), ("μs", 1000), ("ms", 1000000),
   ("s", 1000000000), ("m", 60000000000), ("h", 3600000000000)]

/-- One `number unit` component of a duration: digits, optional fraction,
then a nonempty run of unit characters (everything up to the next digit or
dot) looked up in the unit table.  Returns the component's value in
nanoseconds and the unconsumed rest. -/
def parseDurComponent (l : List Char) : Option (ℚ × List Char) :=
  let ip := l.takeWhile isDigit
  let r1 := l.dropWhile isDigit
  let (fp, r2) := splitFrac r1
  if ip.isEmpty && fp.isEmpty then none
  else
    let unitChars := r2.takeWhile (fun c => !(isDigit c || c = '.'))
    let r3 := r2.dropWhile (fun c => !(isDigit c || c = '.'))
    if unitChars.isEmpty then none
    else
      match durationUnitMap.lookup (String.mk unitChars) with
      | none => none
      | some mult => some (ratMul (decValQ false ip fp false 0) mult, r3)

/-- Fold over the successive components of a duration string.  Each
successful component consumes at least one character, so fuel
`length + 1` is never exhausted; fuel only makes the recursion
structural. -/
def durLoop : Nat → List Char → Option ℚ
  | _, [] => some 0
  | 0, _ :: _ => none
  | fuel + 1, c :: r =>
    match parseDurComponent (c :: r) with
    | none => none
    | some (q, rest) => (durLoop fuel rest).map (fun acc => ratAdd q acc)

/-- Models `time.ParseDuration`: optional sign, special case `"0"`, then
one or more `number unit` components, summed in nanoseconds. -/
def timeParseDuration (s : String) : Except GoError ℚ :=
  let (neg, l) := stripSign s.data
  if l = ['0'] then .ok 0
  else if l.isEmpty then .error (.durationErr s)
  else
    match durLoop (l.length + 1) l with
    | none => .error (.durationErr s)
    | some q => .ok (if neg then -q else q)

/-- Models `strings.HasSuffix(v, u)`:
`len(v) >= len(u) && v[len(v)-len(u):] == u`. -/
def hasSuffix (v u : String) : Bool :=
  decide (u.data.length ≤ v.data.length) &&
    decide (v.data.drop (v.data.length - u.data.length) = u.data)

/-- Models `strings.TrimSuffix(v, u)`. -/
def trimSuffix (v u : String) : String :=
  if hasSuffix v u then String.mk (v.data.take (v.data.length - u.data.length))
  else v

/-- Go conversion `int(f)` from `float64`: truncation toward zero
(Lean's `Int.div` is T-division, matching Go). -/
def goFloatToInt (q : ℚ) : Int := Int.tdiv q.num (q.den : Int)

/-- The binary (IEC, base-2) multiplier table `binaryByteSizeMap` from
`types.go`, in source order; the source's `1 << 10`, …, `1 << 60` written
as numerals. -/
def binaryByteSizeMap : List (String × ℚ) :=
  [("B", 1), ("K", 1024), ("M", 1048576), ("G", 1073741824),
   ("T", 1099511627776), ("P", 1125899906842624), ("E", 1152921504606846976)]

/-- The decimal (SI, base-10) multiplier table `decimalSizeMap` from
`types.go`, in source order. -/
def decimalSizeMap : List (String × ℚ) :=
  [("K", 1000), ("M", 1000000), ("G", 1000000000), ("T", 1000000000000),
   ("P", 1000000000000000), ("E", 1000000000000000000)]

/-- The `parseSize` helper of `types.go`: scan the table entries; on the
first entry whose key is a trailing suffix of the token, strip the suffix,
parse the prefix as a float and multiply; if a matched prefix fails to
parse, return that error at once.  If no entry matches, parse the whole
token as a bare float. -/
def parseSize (v : String) : List (String × ℚ) → Except GoError ℚ
  | [] =>
    match strconvParseFloat v with
    | .error e => .error e
    | .ok f => .ok f
  | (unit, size) :: rest =>
    if hasSuffix v unit then
      match strconvParseFloat (trimSuffix v unit) with
      | .error e => .error e
      | .ok f => .ok (ratMul f size)
    else parseSize v rest

/-- Wrapper `type StringDuration time.Duration`; the stored duration is
modelled as rational nanoseconds. -/
structure StringDuration where
  val : ℚ
deriving DecidableEq

/-- The `StringDuration.UnmarshalJSON` method: JSON string extraction,
then `time.ParseDuration`; early return (receiver untouched) on error. -/
def StringDuration.UnmarshalJSON (s : StringDuration) (b : Json) :
    StringDuration × Option GoError :=
  match jsonUnmarshalString b with
  | .error e => (s, some e)
  | .ok v =>
    match timeParseDuration v with
    | .error e => (s, some e)
    | .ok parsed => (⟨parsed⟩, none)

/-- The `StringDuration.Value` accessor. -/
def StringDuration.Value (s : StringDuration) : ℚ := s.val

/-- Wrapper `type StringInt int`. -/
structure StringInt where
  val : Int
deriving DecidableEq

/-- The `StringInt.UnmarshalJSON` method: JSON string extraction, then
`strconv.Atoi`. -/
def StringInt.UnmarshalJSON (s : StringInt) (b : Json) :
    StringInt × Option GoError :=
  match jsonUnmarshalString b with
  | .error e => (s, some e)
  | .ok v =>
    match strconvAtoi v with
    | .error e => (s, some e)
    | .ok value => (⟨value⟩, none)

/-- The `StringInt.Value` accessor. -/
def StringInt.Value (s : StringInt) : Int := s.val

/-- Wrapper `type StringFloat64 int` — faithfully to the source, the
underlying storage type is the *integer* type `int` (the source itself
carries the comment "TODO: This should probably be float64"). -/
structure StringFloat64 where
  val : Int
deriving DecidableEq

/-- The `StringFloat64.UnmarshalJSON` method: JSON string extraction, then
`strconv.ParseFloat(v, 64)`; the assignment `*s = StringFloat64(value)`
converts the parsed `float64` to `int`, truncating toward zero. -/
def StringFloat64.UnmarshalJSON (s : StringFloat64) (b : Json) :
    StringFloat64 × Option GoError :=
  match jsonUnmarshalString b with
  | .error e => (s, some e)
  | .ok v =>
    match strconvParseFloat v with
    | .error e => (s, some e)
    | .ok value => (⟨goFloatToInt value⟩, none)

/-- The `StringFloat64.Value` accessor: `float64(*s)`, converting the
stored `int` back to `float64`. -/
def StringFloat64.Value (s : StringFloat64) : ℚ := (s.val : ℚ)

/-- Wrapper `type StringBinaryByteSize float64`. -/
structure StringBinaryByteSize where
  val : ℚ
deriving DecidableEq

/-- The `StringBinaryByteSize.UnmarshalJSON` method: JSON string
extraction, then `parseSize` with the binary table. -/
def StringBinaryByteSize.UnmarshalJSON (s : StringBinaryByteSize) (b : Json) :
    StringBinaryByteSize × Option GoError :=
  match jsonUnmarshalString b with
  | .error e => (s, some e)
  | .ok v =>
    match parseSize v binaryByteSizeMap with
    | .error e => (s, some e)
    | .ok parsed => (⟨parsed⟩, none)

/-- The `StringBinaryByteSize.Value` accessor. -/
def StringBinaryByteSize.Value (s : StringBinaryByteSize) : ℚ := s.val

/-- Wrapper `type StringDecimalSize float64`. -/
structure StringDecimalSize where
  val : ℚ
deriving DecidableEq

/-- The `StringDecimalSize.UnmarshalJSON` method: JSON string extraction,
then `parseSize` with the decimal table. -/
def StringDecimalSize.UnmarshalJSON (s : StringDecimalSize) (b : Json) :
    StringDecimalSize × Option GoError :=
  match jsonUnmarshalString b with
  | .error e => (s, some e)
  | .ok v =>
    match parseSize v decimalSizeMap with
    | .error e => (s, some e)
    | .ok parsed => (⟨parsed⟩, none)

/-- The `StringDecimalSize.Value` accessor. -/
def StringDecimalSize.Value (s : StringDecimalSize) : ℚ := s.val

/-- Wrapper `type StringBool bool`. -/
structure StringBool where
  val : Bool
deriving DecidableEq

/-- The `StringBool.UnmarshalJSON` method: JSON string extraction, then
`strconv.ParseBool`. -/
def StringBool.UnmarshalJSON (s : StringBool) (b : Json) :
    StringBool × Option GoError :=
  match jsonUnmarshalString b with
  | .error e => (s, some e)
  | .ok v =>
    match strconvParseBool v with
    | .error e => (s, some e)
    | .ok parsed => (⟨parsed⟩, none)

/-- The `StringBool.Value` accessor. -/
def StringBool.Value (s : StringBool) : Bool := s.val

/-- Left trim: drops the longest run of characters satisfying `p` from the
front (Go `strings.TrimLeft` with a cutset test). -/
def goTrimLeft (p : Char → Bool) (l : List Char) : List Char := l.dropWhile p

/-- Right trim: drops the longest run of characters satisfying `p` from
the back (Go `strings.TrimRight`). -/
def goTrimRight (p : Char → Bool) (l : List Char) : List Char :=
  (l.reverse.dropWhile p).reverse

/-- Models `strings.Trim(s, cutset)`: all leading and all trailing cutset
characters removed (left/right trimming commute, so the order here is
immaterial). -/
def goTrim (p : Char → Bool) (l : List Char) : List Char :=
  goTrimLeft p (goTrimRight p l)

/-- Cutset test for `strings.Trim(v, "[]")`. -/
def isBracket (c : Char) : Bool := c = '[' || c = ']'

/-- Cutset test for `strings.Trim(part, "\"")`. -/
def isQuote (c : Char) : Bool := c = '"'

/-- Whitespace test of `strings.TrimSpace` (the ASCII space class
`'\t' '\n' '\v' '\f' '\r' ' '`; no claim uses non-ASCII whitespace). -/
def goIsSpace (c : Char) : Bool :=
  c = ' ' || c = '\t' || c = '\n' || c = '\x0b' || c = '\x0c' || c = '\r'

/-- Models `strings.Split(s, ",")`: one part per comma, `n` commas give
`n+1` parts, the empty string gives one empty part. -/
def splitOnComma : List Char → List (List Char)
  | [] => [[]]
  | c :: rest =>
    match splitOnComma rest with
    | [] => [[c]]
    | h :: t => if c = ',' then [] :: h :: t else (c :: h) :: t

/-- Per-part processing of `StringArray.UnmarshalJSON`:
`strings.TrimSpace` then `strings.Trim(part, "\"")`. -/
def trimmedPart (p : List Char) : List Char :=
  goTrim isQuote (goTrim goIsSpace p)

/-- Wrapper `type StringArray []string`. -/
structure StringArray where
  val : List String
deriving DecidableEq

/-- The `StringArray.UnmarshalJSON` method: JSON string extraction, strip
all leading/trailing `[`/`]`, split on commas, trim whitespace and quotes
from each part.  The Go loop resets the slice and appends each processed
part in order, i.e. stores the map over the parts. -/
def StringArray.UnmarshalJSON (s : StringArray) (b : Json) :
    StringArray × Option GoError :=
  match jsonUnmarshalString b with
  | .error e => (s, some e)
  | .ok v =>
    let inner := goTrim isBracket v.data
    let parts := splitOnComma inner
    (⟨parts.map (fun part => String.mk (trimmedPart part))⟩, none)

/-- The `StringArray.Value` accessor. -/
def StringArray.Value (s : StringArray) : List String := s.val

/-- The body of `parseSize`'s loop for a matched table entry `p`: strip
the suffix, parse the prefix, multiply by the entry's multiplier. -/
def applyUnit (v : String) (p : String × ℚ) : Except GoError ℚ :=
  match strconvParseFloat (trimSuffix v p.1) with
  | .error e => .error e
  | .ok f => .ok (ratMul f p.2)

/-- The first table entry (in iteration order) whose key is a trailing
suffix of the token. -/
def matchKey (v : String) (m : List (String × ℚ)) : Option (String × ℚ) :=
  m.find? fun p => hasSuffix v p.1

/-- The part of the token that `parseSize` hands to
`strconv.ParseFloat`: the prefix before the matched unit suffix, or the
whole token when no table key matches. -/
def numericPart (v : String) (m : List (String × ℚ)) : String :=
  (matchKey v m).elim v fun p => trimSuffix v p.1

/-- Table invariant: no key is a proper suffix of another key (stated on
distinct keys via `hasSuffix`). -/
@[reducible] def noKeySuffix (m : List (String × ℚ)) : Prop :=
  ∀ p ∈ m, ∀ q ∈ m, p.1 ≠ q.1 → hasSuffix q.1 p.1 = false

/-- Entries of the table are determined by their keys (Go map keys are
unique). -/
@[reducible] def keysInjective (m : List (String × ℚ)) : Prop :=
  ∀ p ∈ m, ∀ q ∈ m, p.1 = q.1 → p = q

/-- The six truthy tokens of `strconv.ParseBool`. -/
def trueTokens : List String := ["1", "t", "T", "true", "TRUE", "True"]

/-- The six falsy tokens of `strconv.ParseBool`. -/
def falseTokens : List String := ["0", "f", "F", "false", "FALSE", "False"]

/-- The `mkRat` product is the field product. -/
theorem ratMul_eq (a b : ℚ) : ratMul a b = a * b := by
  rw [ratMul, ← Rat.mkRat_self a, ← Rat.mkRat_self b, Rat.mkRat_mul_mkRat]
  simp [Rat.mkRat_self]

/-- The `mkRat` sum is the field sum. -/
theorem ratAdd_eq (a b : ℚ) : ratAdd a b = a + b :=
  (Rat.add_def' a b).symm

/-- The signed-decimal value agrees with ordinary field arithmetic. -/
theorem decValQ_eq (neg : Bool) (ip fp : List Char) (eneg : Bool) (e : Nat) :
    decValQ neg ip fp eneg e =
      (cond neg (-1) 1) *
        ((digitsToNat ip : ℚ) + (digitsToNat fp : ℚ) / 10 ^ fp.length) *
        ((10 : ℚ) ^ e) ^ (cond eneg (-1 : ℤ) 1) := by
  have h10 : ((10 : ℚ) ^ fp.length) ≠ 0 := pow_ne_zero _ (by norm_num)
  have h10e : ((10 : ℚ) ^ e) ≠ 0 := pow_ne_zero _ (by norm_num)
  cases neg <;> cases eneg <;>
    simp only [decValQ, signedInt, cond_true, cond_false, if_true, if_false,
      Bool.false_eq_true, zpow_neg, zpow_one] <;>
    rw [Rat.mkRat_eq_div] <;>
    push_cast [pow_add] <;>
    field_simp <;>
    ring1

/-- The Boolean `hasSuffix` test coincides with the list suffix
relation. -/
theorem hasSuffix_iff (v u : String) : hasSuffix v u = true ↔ u.data <:+ v.data := by
  unfold hasSuffix
  simp only [Bool.and_eq_true, decide_eq_true_eq]
  constructor
  · rintro ⟨hle, hdrop⟩
    exact hdrop ▸ List.drop_suffix _ _
  · intro h
    exact ⟨h.length_le, (List.suffix_iff_eq_drop.mp h).symm⟩

/-- The recursive loop of `parseSize` computes: apply the first matching
table entry, falling back to a bare float parse. -/
theorem parseSize_eq_find (v : String) (m : List (String × ℚ)) :
    parseSize v m = (matchKey v m).elim (strconvParseFloat v) (applyUnit v) := by
  induction m with
  | nil => cases hf : strconvParseFloat v <;> simp [parseSize, matchKey, hf]
  | cons hd tl ih =>
    obtain ⟨u, sz⟩ := hd
    by_cases hq : hasSuffix v u = true
    · simp [parseSize, matchKey, List.find?_cons_of_pos, hq, applyUnit]
    · simp only [Bool.not_eq_true] at hq
      simp [parseSize, matchKey, List.find?_cons_of_neg, hq, ih]

/-- The first element satisfying a predicate is invariant under
permutation when at most one element (as a value) satisfies it. -/
theorem find?_perm_of_unique {α : Type} {p : α → Bool} {l₁ l₂ : List α}
    (hperm : l₁.Perm l₂)
    (huniq : ∀ a ∈ l₁, ∀ b ∈ l₁, p a = true → p b = true → a = b) :
    l₁.find? p = l₂.find? p := by
  cases h1 : l₁.find? p with
  | none =>
    refine (List.find?_eq_none.mpr fun x hx => ?_).symm
    exact List.find?_eq_none.mp h1 x (hperm.mem_iff.mpr hx)
  | some a =>
    have hpa := List.find?_some h1
    have hma := List.mem_of_find?_eq_some h1
    have hsome : (l₂.find? p).isSome :=
      List.find?_isSome.mpr ⟨a, hperm.mem_iff.mp hma, hpa⟩
    obtain ⟨b, hb⟩ := Option.isSome_iff_exists.mp hsome
    rw [hb,
      huniq a hma b (hperm.mem_iff.mpr (List.mem_of_find?_eq_some hb)) hpa
        (List.find?_some hb)]

/-- Under the no-key-is-a-suffix-of-another invariant, at most one table
entry can match a given token as a trailing suffix (two suffixes of the
same token are comparable, so distinct matching keys would violate the
invariant). -/
theorem uniqueMatch_of (v : String) (m : List (String × ℚ))
    (hnos : noKeySuffix m) (hinj : keysInjective m) :
    ∀ p ∈ m, ∀ q ∈ m, hasSuffix v p.1 = true → hasSuffix v q.1 = true → p = q := by
  intro p hp q hq hpv hqv
  by_cases hk : p.1 = q.1
  · exact hinj p hp q hq hk
  · rcases List.suffix_or_suffix_of_suffix ((hasSuffix_iff v p.1).mp hpv)
      ((hasSuffix_iff v q.1).mp hqv) with h | h
    · have h2 := (hasSuffix_iff q.1 p.1).mpr h
      rw [hnos p hp q hq hk] at h2
      exact absurd h2 Bool.false_ne_true
    · have h2 := (hasSuffix_iff p.1 q.1).mpr h
      rw [hnos q hq p hp (Ne.symm hk)] at h2
      exact absurd h2 Bool.false_ne_true

/-- Permutation invariance of `parseSize` given at most one matching
entry. -/
theorem parseSize_perm (v : String) {l₁ l₂ : List (String × ℚ)}
    (hperm : l₁.Perm l₂)
    (huniq : ∀ p ∈ l₁, ∀ q ∈ l₁,
      hasSuffix v p.1 = true → hasSuffix v q.1 = true → p = q) :
    parseSize v l₁ = parseSize v l₂ := by
  rw [parseSize_eq_find, parseSize_eq_find]
  unfold matchKey
  rw [find?_perm_of_unique hperm huniq]

/-- C10: no key in the binary multiplier table is a proper suffix of
another key of that table, likewise for the decimal table; consequently
`parseSize` returns the same result (same value or same error) for every
iteration order (permutation) of the selected table. -/
theorem claim_C10_tables_suffix_free_and_order_independent :
    noKeySuffix binaryByteSizeMap ∧ noKeySuffix decimalSizeMap ∧
    (∀ (v : String) (l : List (String × ℚ)), binaryByteSizeMap.Perm l →
      parseSize v binaryByteSizeMap = parseSize v l) ∧
    (∀ (v : String) (l : List (String × ℚ)), decimalSizeMap.Perm l →
      parseSize v decimalSizeMap = parseSize v l) := by
  refine ⟨by decide, by decide, ?_, ?_⟩ <;>
    exact fun v l hperm =>
      parseSize_perm v hperm (uniqueMatch_of v _ (by decide) (by decide))

/-- Witness for C10 at a concrete input: the reversed binary table is a
permutation of the binary table and yields the same result on
`"1.5G"`. -/
theorem claim_C10_witness :
    parseSize "1.5G" binaryByteSizeMap =
      parseSize "1.5G" binaryByteSizeMap.reverse :=
  claim_C10_tables_suffix_free_and_order_independent.2.2.1 "1.5G"
    binaryByteSizeMap.reverse (by decide)

/-- C2: decoding the token `"1.5G"` with the binary table yields exactly
`1.5 * 2^30 = 1610612736.0`, and with the decimal table exactly
`1.5 * 10^9 = 1500000000.0`, in both cases readable through `Value` and
with a nil error. -/
theorem claim_C2_size_decode_one_point_five_G :
    StringBinaryByteSize.UnmarshalJSON ⟨0⟩ (.str "1.5G") =
      (⟨1610612736⟩, none) ∧
    (StringBinaryByteSize.UnmarshalJSON ⟨0⟩ (.str "1.5G")).1.Value =
      (3 / 2 : ℚ) * 2 ^ 30 ∧
    StringDecimalSize.UnmarshalJSON ⟨0⟩ (.str "1.5G") =
      (⟨1500000000⟩, none) ∧
    (StringDecimalSize.UnmarshalJSON ⟨0⟩ (.str "1.5G")).1.Value =
      (3 / 2 : ℚ) * 10 ^ 9 := by
  refine ⟨by decide, ?_, by decide, ?_⟩ <;> norm_num <;> decide

/-- C6: `StringArray` decode of `"[host1,host2,host3]"` yields exactly
`["host1", "host2", "host3"]`, and decode of the empty token yields the
one-element sequence containing the empty string. -/
theorem claim_C6_string_array_examples :
    StringArray.UnmarshalJSON ⟨[]⟩ (.str "[host1,host2,host3]") =
      (⟨["host1", "host2", "host3"]⟩, none) ∧
    StringArray.UnmarshalJSON ⟨[]⟩ (.str "") = (⟨[""]⟩, none) := by
  constructor <;> decide

/-- C9: each wrapper's `Value` accessor, invoked on the zero-valued
wrapper (i.e. before any successful decode), returns the type's zero
value.  In this embedding every accessor is a total pure function of the
wrapper state (translated from the Go source, which only reads `*s`), so
it cannot fail, cannot mutate the wrapper, and trivially returns the same
value on repeated invocations while no decode intervenes. -/
theorem claim_C9_value_accessor_zero_values :
    (⟨0⟩ : StringDuration).Value = 0 ∧
    (⟨0⟩ : StringInt).Value = 0 ∧
    (⟨0⟩ : StringFloat64).Value = 0 ∧
    (⟨0⟩ : StringBinaryByteSize).Value = 0 ∧
    (⟨0⟩ : StringDecimalSize).Value = 0 ∧
    (⟨false⟩ : StringBool).Value = false ∧
    (⟨[]⟩ : StringArray).Value = [] := by
  refine ⟨rfl, rfl, rfl, rfl, rfl, rfl, rfl⟩

/-- C3: if no table key is a suffix of the token, `parseSize` parses the
entire token as a bare float and returns it unmultiplied (so `"1024"`
decodes to `1024.0` with either table), and `parseSize` returns an error
exactly when the numeric prefix (or, with no match, the whole token)
fails to parse as a float. -/
theorem claim_C3_bare_fallback_and_error_condition :
    (∀ (v : String) (m : List (String × ℚ)),
      (∀ p ∈ m, hasSuffix v p.1 = false) → parseSize v m = strconvParseFloat v) ∧
    (∀ (v : String) (m : List (String × ℚ)),
      (∃ e, parseSize v m = .error e) ↔ parseFloatQ (numericPart v m).data = none) ∧
    parseSize "1024" binaryByteSizeMap = .ok 1024 ∧
    parseSize "1024" decimalSizeMap = .ok 1024 := by
  refine ⟨?_, ?_, by decide, by decide⟩
  · intro v m h
    rw [parseSize_eq_find]
    have hnone : matchKey v m = none :=
      List.find?_eq_none.mpr fun p hp => by simp [h p hp]
    rw [hnone]
    cases hf : strconvParseFloat v <;> simp [hf]
  · intro v m
    rw [parseSize_eq_find]
    cases hm : matchKey v m with
    | none =>
      cases hf : parseFloatQ v.data <;>
        simp [numericPart, hm, strconvParseFloat, hf]
    | some p =>
      cases hf : parseFloatQ (trimSuffix v p.1).data <;>
        simp [numericPart, hm, applyUnit, strconvParseFloat, hf]

/-- Witness for C3 at a concrete input: no binary-table key suffixes
`"1024"`, so `parseSize` equals the bare float parse there. -/
theorem claim_C3_witness :
    parseSize "1024" binaryByteSizeMap = strconvParseFloat "1024" :=
  claim_C3_bare_fallback_and_error_condition.1 "1024" binaryByteSizeMap
    (by decide)

/-- C5: boolean decode succeeds exactly on the canonical twelve-token
set, yielding `true` on the six truthy tokens and `false` on the six
falsy ones; any other token (e.g. `"yes"`) fails with the parse error. -/
theorem claim_C5_bool_token_set :
    ∀ (s0 : StringBool) (t : String),
      ((s0.UnmarshalJSON (.str t)).2 = none ↔ t ∈ trueTokens ++ falseTokens) ∧
      (t ∈ trueTokens → s0.UnmarshalJSON (.str t) = (⟨true⟩, none)) ∧
      (t ∈ falseTokens → s0.UnmarshalJSON (.str t) = (⟨false⟩, none)) ∧
      (s0.UnmarshalJSON (.str "yes")).2 = some (.boolErr "yes") := by
  intro s0 t
  refine ⟨?_, ?_, ?_, rfl⟩
  · by_cases h1 : t = "1" ∨ t = "t" ∨ t = "T" ∨ t = "true" ∨ t = "TRUE" ∨ t = "True" <;>
      by_cases h2 : t = "0" ∨ t = "f" ∨ t = "F" ∨ t = "false" ∨ t = "FALSE" ∨ t = "False" <;>
      simp [StringBool.UnmarshalJSON, jsonUnmarshalString, strconvParseBool,
        trueTokens, falseTokens, h1, h2]
  · intro ht
    simp only [trueTokens, List.mem_cons, List.not_mem_nil, or_false] at ht
    rcases ht with rfl | rfl | rfl | rfl | rfl | rfl <;> rfl
  · intro ht
    simp only [falseTokens, List.mem_cons, List.not_mem_nil, or_false] at ht
    rcases ht with rfl | rfl | rfl | rfl | rfl | rfl <;> rfl

/-- Witness for C5 at a concrete input: `"T"` is truthy. -/
theorem claim_C5_witness :
    StringBool.UnmarshalJSON ⟨false⟩ (.str "T") = (⟨true⟩, none) :=
  (claim_C5_bool_token_set ⟨false⟩ "T").2.1 (by decide)

/-- A trimmed list neither starts nor ends with a character of the
cutset. -/
theorem goTrim_no_edge {p : Char → Bool} (l : List Char) :
    (∀ c, (goTrim p l).head? = some c → p c = false) ∧
    (∀ c, (goTrim p l).getLast? = some c → p c = false) := by
  constructor
  · intro c h
    have hh := List.head?_dropWhile_not p (goTrimRight p l)
    rw [goTrim, goTrimLeft] at h
    rw [h] at hh
    exact hh
  · intro c h
    have hsuf : goTrim p l <:+ goTrimRight p l := List.dropWhile_suffix p
    have hne : goTrim p l ≠ [] := by
      intro he
      rw [he] at h
      simp at h
    obtain ⟨t, ht⟩ := hsuf
    have hlast : (goTrimRight p l).getLast? = some c := by
      rw [← ht, List.getLast?_append, h]
      rfl
    rw [goTrimRight, List.getLast?_reverse] at hlast
    have hh := List.head?_dropWhile_not p l.reverse
    rw [hlast] at hh
    exact hh

/-- C7: the `StringArray` decoder trims every leading and trailing
double-quote character from each comma-separated part (a full
`strings.Trim`, not a single layer): no element of the decoded sequence
starts or ends with `"`, and the part `""a""` decodes to `a` just like
`"a"` does. -/
theorem claim_C7_quote_trimming_policy :
    (∀ (t e : String),
      e ∈ (StringArray.UnmarshalJSON ⟨[]⟩ (.str t)).1.Value →
        e.data.head? ≠ some '"' ∧ e.data.getLast? ≠ some '"') ∧
    StringArray.UnmarshalJSON ⟨[]⟩ (.str "\"a\",\"\"a\"\"") =
      (⟨["a", "a"]⟩, none) := by
  refine ⟨?_, by decide⟩
  intro t e he
  simp only [StringArray.UnmarshalJSON, jsonUnmarshalString,
    StringArray.Value, List.mem_map] at he
  obtain ⟨part, _, rfl⟩ := he
  constructor
  · intro h
    have := (goTrim_no_edge (goTrim goIsSpace part)).1 '"' h
    simp [isQuote] at this
  · intro h
    have := (goTrim_no_edge (goTrim goIsSpace part)).2 '"' h
    simp [isQuote] at this

/-- Witness for C7 at a concrete input: the decoded element `"a"` (from
the quoted part) has no leading or trailing quote. -/
theorem claim_C7_witness :
    ("a" : String).data.head? ≠ some '"' ∧
      ("a" : String).data.getLast? ≠ some '"' :=
  claim_C7_quote_trimming_policy.1 "\"a\"" "a" (by decide)

/-- The last element of a list with a nonempty appended tail is the
tail's last element. -/
theorem getLast?_append_right (x y : List Char) (hy : y ≠ []) :
    (x ++ y).getLast? = y.getLast? := by
  rw [List.getLast?_append]
  cases hg : y.getLast? with
  | none => exact absurd (List.getLast?_eq_none_iff.mp hg) hy
  | some a => rfl

/-- Stripping a sign character either leaves nothing or preserves the
last element. -/
theorem stripSign_getLast_aux (l : List Char) :
    (stripSign l).2 = [] ∨ l.getLast? = (stripSign l).2.getLast? := by
  cases l with
  | nil => exact Or.inl rfl
  | cons c r =>
    by_cases h2 : c = '-'
    · cases r with
      | nil => simp [stripSign, h2]
      | cons a t => right; simp [stripSign, h2]
    · by_cases h3 : c = '+'
      · cases r with
        | nil => simp [stripSign, h2, h3]
        | cons a t => right; simp [stripSign, h2, h3]
      · right; simp [stripSign, h2, h3]

/-- Applied form of `stripSign_getLast_aux`. -/
theorem stripSign_getLast (l l1 : List Char) (b : Bool)
    (hss : stripSign l = (b, l1)) (h1 : l1 ≠ []) :
    l.getLast? = l1.getLast? := by
  rcases stripSign_getLast_aux l with he | he
  · rw [hss] at he
    exact absurd he h1
  · rw [hss] at he
    exact he

/-- A nonempty list wholly consumed by the digit scan ends in a digit. -/
theorem getLast_digits (x : List Char) (hne : x ≠ [])
    (hx : x.dropWhile isDigit = []) :
    ∃ c, x.getLast? = some c ∧ isDigit c = true := by
  have hsplit := List.takeWhile_append_dropWhile isDigit x
  rw [hx, List.append_nil] at hsplit
  cases hg : x.getLast? with
  | none => exact absurd (List.getLast?_eq_none_iff.mp hg) hne
  | some c =>
    refine ⟨c, rfl, ?_⟩
    have hc : c ∈ x := List.mem_of_getLast?_eq_some hg
    rw [← hsplit] at hc
    exact List.mem_takeWhile_imp hc

/-- A successful exponent-part parse means the remainder after the
`e`/`E` was a sign and a nonempty digit run, so it ends in a digit. -/
theorem parseExpTail_some_last (neg : Bool) (ip fp rest : List Char) (f : ℚ)
    (h : parseExpTail neg ip fp rest = some f) :
    ∃ c, rest.getLast? = some c ∧ isDigit c = true := by
  unfold parseExpTail at h
  rcases hss : stripSign rest with ⟨eneg, d⟩
  simp only [hss] at h
  by_cases hcond :
      ((d.takeWhile isDigit).isEmpty || !(d.dropWhile isDigit).isEmpty) = true
  · rw [if_pos hcond] at h
    simp at h
  · rw [if_neg hcond] at h
    rw [Bool.or_eq_true, not_or] at hcond
    obtain ⟨h1, h2⟩ := hcond
    have h2d : d.dropWhile isDigit = [] := by
      rcases hB : d.dropWhile isDigit with _ | ⟨a, t⟩
      · rfl
      · exact absurd (by rw [hB]; rfl) h2
    have hdne : d ≠ [] := by
      intro hd
      exact h1 (by rw [hd]; rfl)
    obtain ⟨c, hc, hcd⟩ := getLast_digits d hdne h2d
    exact ⟨c, (stripSign_getLast rest d eneg hss hdne).trans hc, hcd⟩

/-- A token accepted by the float grammar ends in a digit or a dot — the
grammar's only possible final characters — independently of the numeric
value produced. -/
theorem parseFloatQ_some_last (l : List Char) (f : ℚ)
    (h : parseFloatQ l = some f) :
    ∃ c, l.getLast? = some c ∧ (isDigit c = true ∨ c = '.') := by
  unfold parseFloatQ at h
  rcases hss : stripSign l with ⟨neg, l1⟩
  simp only [hss] at h
  rcases hsf : splitFrac (l1.dropWhile isDigit) with ⟨fp, r2⟩
  simp only [hsf] at h
  by_cases hemp : ((l1.takeWhile isDigit).isEmpty && fp.isEmpty) = true
  · rw [if_pos hemp] at h
    simp at h
  · rw [if_neg hemp] at h
    rcases hr1 : l1.dropWhile isDigit with _ | ⟨c0, rest0⟩
    · rw [hr1] at hsf
      simp only [splitFrac] at hsf
      injection hsf with hfp hr2
      subst hfp
      subst hr2
      have hl1 : l1 ≠ [] := by
        rintro rfl
        exact hemp (by decide)
      obtain ⟨c, hc, hcd⟩ := getLast_digits l1 hl1 hr1
      exact ⟨c, (stripSign_getLast l l1 neg hss hl1).trans hc, Or.inl hcd⟩
    · rw [hr1] at hsf
      have hl1 : l1 ≠ [] := by
        rintro rfl
        simp at hr1
      have hltr := stripSign_getLast l l1 neg hss hl1
      have hsplit : l1 = l1.takeWhile isDigit ++ (c0 :: rest0) := by
        conv_lhs => rw [← List.takeWhile_append_dropWhile isDigit l1]
        rw [hr1]
      replace hsf : (if c0 = '.' then
          (rest0.takeWhile isDigit, rest0.dropWhile isDigit)
        else ([], c0 :: rest0)) = (fp, r2) := hsf
      by_cases hdot : c0 = '.'
      · rw [if_pos hdot] at hsf
        injection hsf with hfp hr2
        subst hfp
        subst hr2
        cases hr2s : rest0.dropWhile isDigit with
        | nil =>
          cases hrest : rest0 with
          | nil =>
            refine ⟨'.', ?_, Or.inr rfl⟩
            rw [hltr, hsplit, hdot, hrest]
            exact List.getLast?_concat _
          | cons a t =>
            have hrne : rest0 ≠ [] := by
              rw [hrest]
              simp
            obtain ⟨c, hc, hcd⟩ := getLast_digits rest0 hrne hr2s
            refine ⟨c, ?_, Or.inl hcd⟩
            rw [hltr, hsplit, hdot,
              getLast?_append_right _ _ (by simp),
              show ('.' :: rest0) = ['.'] ++ rest0 from rfl,
              getLast?_append_right _ _ hrne, hc]
        | cons c1 rest1 =>
          rw [hr2s] at h
          replace h : (if c1 = 'e' ∨ c1 = 'E' then
              parseExpTail neg (l1.takeWhile isDigit)
                (rest0.takeWhile isDigit) rest1
            else none) = some f := h
          by_cases he : c1 = 'e' ∨ c1 = 'E'
          · rw [if_pos he] at h
            obtain ⟨c, hcl, hcd⟩ := parseExpTail_some_last _ _ _ _ _ h
            have hr1ne : rest1 ≠ [] := by
              intro hx
              rw [hx] at hcl
              simp at hcl
            refine ⟨c, ?_, Or.inl hcd⟩
            rw [hltr, hsplit, hdot,
              getLast?_append_right _ _ (by simp),
              show ('.' :: rest0) = ['.'] ++ rest0 from rfl,
              getLast?_append_right _ _ (by rintro rfl; simp at hr2s)]
            conv_lhs => rw [← List.takeWhile_append_dropWhile isDigit rest0, hr2s]
            rw [getLast?_append_right _ _ (by simp),
              show (c1 :: rest1) = [c1] ++ rest1 from rfl,
              getLast?_append_right _ _ hr1ne, hcl]
          · rw [if_neg he] at h
            simp at h
      · rw [if_neg hdot] at hsf
        injection hsf with hfp hr2
        subst hfp
        subst hr2
        replace h : (if c0 = 'e' ∨ c0 = 'E' then
            parseExpTail neg (l1.takeWhile isDigit) [] rest0
          else none) = some f := h
        by_cases he : c0 = 'e' ∨ c0 = 'E'
        · rw [if_pos he] at h
          obtain ⟨c, hcl, hcd⟩ := parseExpTail_some_last _ _ _ _ _ h
          have hrne : rest0 ≠ [] := by
            intro hx
            rw [hx] at hcl
            simp at hcl
          refine ⟨c, ?_, Or.inl hcd⟩
          rw [hltr, hsplit,
            getLast?_append_right _ _ (by simp),
            show (c0 :: rest0) = [c0] ++ rest0 from rfl,
            getLast?_append_right _ _ hrne, hcl]
        · rw [if_neg he] at h
          simp at h

/-- The float grammar rejects every token ending in `'B'` (a syntax
error; this holds of Go's `ParseFloat` as well, independently of range or
rounding, since no valid numeric token ends in `'B'`). -/
theorem parseFloatQ_append_B (l : List Char) :
    parseFloatQ (l ++ ['B']) = none := by
  cases hp : parseFloatQ (l ++ ['B']) with
  | none => rfl
  | some f =>
    obtain ⟨c, hc, hcd⟩ := parseFloatQ_some_last _ _ hp
    rw [List.getLast?_concat] at hc
    injection hc with hc
    subst hc
    rcases hcd with hcd | hcd
    · exact absurd hcd (by decide)
    · exact absurd hcd (by decide)

/-- For a token ending in the character `b`, a single-character key
matches as a trailing suffix exactly when it is `b`. -/
theorem hasSuffix_single (v u : String) (l : List Char) (b c : Char)
    (hv : v.data = l ++ [b]) (hu : u.data = [c]) :
    hasSuffix v u = true ↔ c = b := by
  rw [hasSuffix_iff, hu, hv]
  constructor
  · intro hsuf
    have h1 := hsuf.getLast (by simp)
    simpa [List.getLast_concat] using h1
  · rintro rfl
    exact List.suffix_append l [c]

/-- Stripping the matched `"B"` suffix recovers the numeric prefix. -/
theorem trimSuffix_append_B (l : List Char) :
    trimSuffix (String.mk (l ++ ['B'])) "B" = String.mk l := by
  have hsuf : hasSuffix (String.mk (l ++ ['B'])) "B" = true :=
    (hasSuffix_single _ _ l 'B' 'B' rfl rfl).mpr rfl
  unfold trimSuffix
  rw [if_pos hsuf]
  have hlen : (String.mk (l ++ ['B'])).data.length -
      ("B" : String).data.length = l.length := by simp
  rw [show (String.mk (l ++ ['B'])).data = l ++ ['B'] from rfl, hlen,
    List.take_left' rfl]

/-- C4: the decimal multiplier table holds exactly the keys
`K M G T P E` with multipliers `10^3 … 10^18` and no `B` entry;
consequently, for every token consisting of a number (any token the float
primitive accepts, with value `f`) followed by the suffix `B`,
decimal-table parsing matches no unit suffix, falls through to the
no-suffix bare-float path and fails with the float parse error on the
whole token (which, ending in `B`, is never a valid float), whereas
binary-table parsing of the same token succeeds with multiplier 1,
returning `f * 1`.  The statement is conditioned on the primitive's own
verdict on the prefix, so it is independent of the float model's numeric
details, exactly as the code's control flow is. -/
theorem claim_C4_decimal_table_has_no_B_entry :
    decimalSizeMap = [("K", 1000), ("M", 1000000), ("G", 1000000000),
      ("T", 1000000000000), ("P", 1000000000000000),
      ("E", 1000000000000000000)] ∧
    (∀ p ∈ decimalSizeMap, p.1 ≠ "B") ∧
    (∀ (n : String) (f : ℚ), strconvParseFloat n = .ok f →
      parseSize (String.mk (n.data ++ ['B'])) decimalSizeMap =
        .error (.floatErr (String.mk (n.data ++ ['B']))) ∧
      parseSize (String.mk (n.data ++ ['B'])) binaryByteSizeMap =
        .ok (f * 1)) := by
  refine ⟨rfl, by decide, ?_⟩
  intro n f hf
  constructor
  · have hmk : matchKey (String.mk (n.data ++ ['B'])) decimalSizeMap = none := by
      apply List.find?_eq_none.mpr
      intro p hp
      simp only [decimalSizeMap, List.mem_cons, List.not_mem_nil, or_false] at hp
      rcases hp with rfl | rfl | rfl | rfl | rfl | rfl <;>
        exact fun hx =>
          absurd ((hasSuffix_single _ _ n.data 'B' _ rfl rfl).mp hx) (by decide)
    have hfb : strconvParseFloat (String.mk (n.data ++ ['B'])) =
        .error (.floatErr (String.mk (n.data ++ ['B']))) := by
      unfold strconvParseFloat
      rw [show (String.mk (n.data ++ ['B'])).data = n.data ++ ['B'] from rfl,
        parseFloatQ_append_B n.data]
    rw [parseSize_eq_find, hmk]
    exact hfb
  · have hpos : hasSuffix (String.mk (n.data ++ ['B'])) "B" = true :=
      (hasSuffix_single _ _ n.data 'B' 'B' rfl rfl).mpr rfl
    have hmk : matchKey (String.mk (n.data ++ ['B'])) binaryByteSizeMap =
        some ("B", 1) := by
      unfold matchKey binaryByteSizeMap
      exact List.find?_cons_of_pos _ hpos
    have htrim : trimSuffix (String.mk (n.data ++ ['B'])) "B" = n :=
      trimSuffix_append_B n.data
    have happ : applyUnit (String.mk (n.data ++ ['B'])) ("B", 1) =
        .ok (f * 1) := by
      simp only [applyUnit]
      rw [htrim, hf]
      simp [ratMul_eq]
    rw [parseSize_eq_find, hmk]
    exact happ

/-- Witness for C4 at a concrete input: `"100"` is a number the float
primitive accepts with value 100, so `"100B"` fails against the decimal
table and parses as `100 * 1` against the binary table. -/
theorem claim_C4_witness :
    parseSize (String.mk (("100" : String).data ++ ['B'])) decimalSizeMap =
        .error (.floatErr (String.mk (("100" : String).data ++ ['B']))) ∧
      parseSize (String.mk (("100" : String).data ++ ['B'])) binaryByteSizeMap =
        .ok ((100 : ℚ) * 1) :=
  claim_C4_decimal_table_has_no_B_entry.2.2 "100" 100 (by decide)

/-- C8: for every wrapper type and every input, if decode returns an
error then the wrapper's stored value is unchanged (the returned state
equals the receiver), and the error returned is exactly the error value
produced by the underlying primitive — the JSON string extraction or the
type's parsing primitive — not wrapped or renamed. -/
theorem claim_C8_error_leaves_state_unchanged_error_unwrapped :
    (∀ (s : StringDuration) (b : Json),
      ((s.UnmarshalJSON b).2 ≠ none → (s.UnmarshalJSON b).1 = s) ∧
      (∀ e, jsonUnmarshalString b = .error e → (s.UnmarshalJSON b).2 = some e) ∧
      (∀ v e, jsonUnmarshalString b = .ok v → timeParseDuration v = .error e →
        (s.UnmarshalJSON b).2 = some e)) ∧
    (∀ (s : StringInt) (b : Json),
      ((s.UnmarshalJSON b).2 ≠ none → (s.UnmarshalJSON b).1 = s) ∧
      (∀ e, jsonUnmarshalString b = .error e → (s.UnmarshalJSON b).2 = some e) ∧
      (∀ v e, jsonUnmarshalString b = .ok v → strconvAtoi v = .error e →
        (s.UnmarshalJSON b).2 = some e)) ∧
    (∀ (s : StringFloat64) (b : Json),
      ((s.UnmarshalJSON b).2 ≠ none → (s.UnmarshalJSON b).1 = s) ∧
      (∀ e, jsonUnmarshalString b = .error e → (s.UnmarshalJSON b).2 = some e) ∧
      (∀ v e, jsonUnmarshalString b = .ok v → strconvParseFloat v = .error e →
        (s.UnmarshalJSON b).2 = some e)) ∧
    (∀ (s : StringBinaryByteSize) (b : Json),
      ((s.UnmarshalJSON b).2 ≠ none → (s.UnmarshalJSON b).1 = s) ∧
      (∀ e, jsonUnmarshalString b = .error e → (s.UnmarshalJSON b).2 = some e) ∧
      (∀ v e, jsonUnmarshalString b = .ok v →
        parseSize v binaryByteSizeMap = .error e →
        (s.UnmarshalJSON b).2 = some e)) ∧
    (∀ (s : StringDecimalSize) (b : Json),
      ((s.UnmarshalJSON b).2 ≠ none → (s.UnmarshalJSON b).1 = s) ∧
      (∀ e, jsonUnmarshalString b = .error e → (s.UnmarshalJSON b).2 = some e) ∧
      (∀ v e, jsonUnmarshalString b = .ok v →
        parseSize v decimalSizeMap = .error e →
        (s.UnmarshalJSON b).2 = some e)) ∧
    (∀ (s : StringBool) (b : Json),
      ((s.UnmarshalJSON b).2 ≠ none → (s.UnmarshalJSON b).1 = s) ∧
      (∀ e, jsonUnmarshalString b = .error e → (s.UnmarshalJSON b).2 = some e) ∧
      (∀ v e, jsonUnmarshalString b = .ok v → strconvParseBool v = .error e →
        (s.UnmarshalJSON b).2 = some e)) ∧
    (∀ (s : StringArray) (b : Json),
      ((s.UnmarshalJSON b).2 ≠ none → (s.UnmarshalJSON b).1 = s) ∧
      (∀ e, jsonUnmarshalString b = .error e → (s.UnmarshalJSON b).2 = some e) ∧
      (∀ v, jsonUnmarshalString b = .ok v → (s.UnmarshalJSON b).2 = none)) := by
  refine ⟨?_, ?_, ?_, ?_, ?_, ?_, ?_⟩ <;> intro s b <;> refine ⟨?_, ?_, ?_⟩
  · cases b with
    | notStr => intro _; rfl
    | str v =>
      cases hd : timeParseDuration v <;>
        simp [StringDuration.UnmarshalJSON, jsonUnmarshalString, hd]
  · intro e he
    cases b with
    | notStr =>
      simp only [jsonUnmarshalString, Except.error.injEq] at he
      subst he
      rfl
    | str v => simp [jsonUnmarshalString] at he
  · intro v e hv he
    cases b with
    | notStr => simp [jsonUnmarshalString] at hv
    | str w =>
      simp only [jsonUnmarshalString, Except.ok.injEq] at hv
      subst hv
      simp [StringDuration.UnmarshalJSON, jsonUnmarshalString, he]
  · cases b with
    | notStr => intro _; rfl
    | str v =>
      cases hd : strconvAtoi v <;>
        simp [StringInt.UnmarshalJSON, jsonUnmarshalString, hd]
  · intro e he
    cases b with
    | notStr =>
      simp only [jsonUnmarshalString, Except.error.injEq] at he
      subst he
      rfl
    | str v => simp [jsonUnmarshalString] at he
  · intro v e hv he
    cases b with
    | notStr => simp [jsonUnmarshalString] at hv
    | str w =>
      simp only [jsonUnmarshalString, Except.ok.injEq] at hv
      subst hv
      simp [StringInt.UnmarshalJSON, jsonUnmarshalString, he]
  · cases b with
    | notStr => intro _; rfl
    | str v =>
      cases hd : strconvParseFloat v <;>
        simp [StringFloat64.UnmarshalJSON, jsonUnmarshalString, hd]
  · intro e he
    cases b with
    | notStr =>
      simp only [jsonUnmarshalString, Except.error.injEq] at he
      subst he
      rfl
    | str v => simp [jsonUnmarshalString] at he
  · intro v e hv he
    cases b with
    | notStr => simp [jsonUnmarshalString] at hv
    | str w =>
      simp only [jsonUnmarshalString, Except.ok.injEq] at hv
      subst hv
      simp [StringFloat64.UnmarshalJSON, jsonUnmarshalString, he]
  · cases b with
    | notStr => intro _; rfl
    | str v =>
      cases hd : parseSize v binaryByteSizeMap <;>
        simp [StringBinaryByteSize.UnmarshalJSON, jsonUnmarshalString, hd]
  · intro e he
    cases b with
    | notStr =>
      simp only [jsonUnmarshalString, Except.error.injEq] at he
      subst he
      rfl
    | str v => simp [jsonUnmarshalString] at he
  · intro v e hv he
    cases b with
    | notStr => simp [jsonUnmarshalString] at hv
    | str w =>
      simp only [jsonUnmarshalString, Except.ok.injEq] at hv
      subst hv
      simp [StringBinaryByteSize.UnmarshalJSON, jsonUnmarshalString, he]
  · cases b with
    | notStr => intro _; rfl
    | str v =>
      cases hd : parseSize v decimalSizeMap <;>
        simp [StringDecimalSize.UnmarshalJSON, jsonUnmarshalString, hd]
  · intro e he
    cases b with
    | notStr =>
      simp only [jsonUnmarshalString, Except.error.injEq] at he
      subst he
      rfl
    | str v => simp [jsonUnmarshalString] at he
  · intro v e hv he
    cases b with
    | notStr => simp [jsonUnmarshalString] at hv
    | str w =>
      simp only [jsonUnmarshalString, Except.ok.injEq] at hv
      subst hv
      simp [StringDecimalSize.UnmarshalJSON, jsonUnmarshalString, he]
  · cases b with
    | notStr => intro _; rfl
    | str v =>
      cases hd : strconvParseBool v <;>
        simp [StringBool.UnmarshalJSON, jsonUnmarshalString, hd]
  · intro e he
    cases b with
    | notStr =>
      simp only [jsonUnmarshalString, Except.error.injEq] at he
      subst he
      rfl
    | str v => simp [jsonUnmarshalString] at he
  · intro v e hv he
    cases b with
    | notStr => simp [jsonUnmarshalString] at hv
    | str w =>
      simp only [jsonUnmarshalString, Except.ok.injEq] at hv
      subst hv
      simp [StringBool.UnmarshalJSON, jsonUnmarshalString, he]
  · cases b with
    | notStr => intro _; rfl
    | str v => simp [StringArray.UnmarshalJSON, jsonUnmarshalString]
  · intro e he
    cases b with
    | notStr =>
      simp only [jsonUnmarshalString, Except.error.injEq] at he
      subst he
      rfl
    | str v => simp [jsonUnmarshalString] at he
  · intro v hv
    cases b with
    | notStr => simp [jsonUnmarshalString] at hv
    | str w => simp [StringArray.UnmarshalJSON, jsonUnmarshalString]

/-- Witness for C8 at a concrete input: decoding the malformed duration
token `"oops"` fails and leaves the previously stored value `5` in
place. -/
theorem claim_C8_witness :
    ((⟨5⟩ : StringDuration).UnmarshalJSON (.str "oops")).1 = ⟨5⟩ :=
  (claim_C8_error_leaves_state_unchanged_error_unwrapped.1 ⟨5⟩
    (.str "oops")).1 (by decide)

/-- C1 (failing-input evaluation): because the source declares
`type StringFloat64 int`, decoding the well-formed float token `"1.5"`
succeeds but stores the truncated integer `1`, and `Value` then returns
`1.0`, not `1.5` — fractional values are not preserved, contradicting the
claim (and the source's own comments, which call the `int` declaration a
typo). -/
theorem claim_C1_float64_wrapper_truncates :
    (StringFloat64.UnmarshalJSON ⟨0⟩ (.str "1.5")).2 = none ∧
    (StringFloat64.UnmarshalJSON ⟨0⟩ (.str "1.5")).1.Value = 1 ∧
    (StringFloat64.UnmarshalJSON ⟨0⟩ (.str "1.5")).1.Value ≠ (3 / 2 : ℚ) := by
  refine ⟨by decide, by decide, ?_⟩
  intro h
  rw [show (StringFloat64.UnmarshalJSON ⟨0⟩ (.str "1.5")).1.Value = 1 by decide] at h
  norm_num at h

end GoTypes
